import Mathlib

/-!
Verification development for the `job-cli` job-application tracker
(`src/main.rs`).  The program is a single-file CRUD store over a list of
job records with a CSV importer and a PDF exporter.  We embed the record
type and every collection-transforming operation as Lean functions and
prove the specified properties about them.

Conventions of the embedding:
* `Job` mirrors the Rust `struct Job`; record ids are `Nat` (the Rust
  `u32` arithmetic here is `max + 1`, far from the wrap-around range for
  any collection built by the program's own operations).
* Functions that in Rust also perform I/O (printing, saving) are modelled
  by their effect on the in-memory collection plus the boolean/numeric
  outcome they report.
* `truncate` returns `Option String`: `none` models a Rust panic
  (`usize` underflow of `max_width - 3`, or byte-slicing off a UTF-8
  character boundary).
-/

/-- Mirrors `struct Job` from `src/main.rs` (lines 11-20). -/
structure Job where
  id : Nat
  company : String
  title : String
  date_submitted : String
  docs_used : String
  location : String
  final_answer : Option String
  deriving Repr, DecidableEq

/-- `jobs.iter().map(|j| j.id).max().unwrap_or(0)` from lines 78 and 206:
the maximum id in the collection, `0` for the empty collection. -/
def maxId (jobs : List Job) : Nat :=
  (jobs.map Job.id).foldl max 0

/-- `jobs.iter().map(|j| j.id).max().unwrap_or(0) + 1` (lines 78, 206). -/
def nextId (jobs : List Job) : Nat :=
  maxId jobs + 1

/-- The `Commands::Add` arm of `main` (lines 70-91): build a record with
the next id and `final_answer: None`, push it, return the collection and
the new record (used for the confirmation message). -/
def addJob (jobs : List Job) (company title docs location date_submitted : String) :
    List Job × Job :=
  let job : Job :=
    { id := nextId jobs, company := company, title := title,
      date_submitted := date_submitted, docs_used := docs,
      location := location, final_answer := none }
  (jobs ++ [job], job)

/-- The `Commands::Update` arm of `main` (lines 92-100):
`jobs.iter_mut().find(|j| j.id == id)` sets `final_answer = Some(answer)`
on the first record with the given id; the boolean reports whether a
record was found (`false` models the "not found" message path, on which
the collection is not saved and not changed). -/
def updateJob : List Job → Nat → String → List Job × Bool
  | [], _, _ => ([], false)
  | j :: rest, i, a =>
    if j.id = i then
      ({ j with final_answer := some a } :: rest, true)
    else
      let p := updateJob rest i a
      (j :: p.1, p.2)

/-- The `Commands::Delete` arm of `main` (lines 101-110):
`jobs.retain(|j| j.id != id)`; the boolean reports whether the length
shrank (a removal occurred). -/
def deleteJob (jobs : List Job) (i : Nat) : List Job × Bool :=
  let kept := jobs.filter fun j => j.id != i
  (kept, kept.length < jobs.length)

/-- Rendering of the answer column in the `Commands::List` arm (line 119):
`job.final_answer.clone().unwrap_or_else(|| "Pending".to_string())`. -/
def renderAnswer (j : Job) : String :=
  j.final_answer.getD "Pending"

/-- `u8::to_ascii_lowercase` lifted to `Char`: ASCII uppercase letters are
shifted down by 32, everything else is unchanged.  (Rust's
`eq_ignore_ascii_case` compares the UTF-8 bytes pairwise after ASCII
lowercasing; since lowercasing only affects bytes below 0x80, which are
exactly the one-byte characters, the character-level model agrees with
the byte-level one.) -/
def asciiLower (c : Char) : Char :=
  if 'A' ≤ c ∧ c ≤ 'Z' then Char.ofNat (c.toNat + 32) else c

/-- `str::eq_ignore_ascii_case` (used at line 202). -/
def eqIgnoreAsciiCase (s t : String) : Bool :=
  decide (s.data.map asciiLower = t.data.map asciiLower)

/-- The duplicate test of `import_from_csv` (line 202):
`j.company.eq_ignore_ascii_case(&company) && j.title.eq_ignore_ascii_case(&title)`. -/
def dupMatch (company title : String) (j : Job) : Bool :=
  eqIgnoreAsciiCase j.company company && eqIgnoreAsciiCase j.title title

/-- Rust `str::trim` (used on every CSV field): drop whitespace from both
ends.  (Lean's own `String.trim` is defined by well-founded recursion on
byte positions and does not reduce in the kernel; this structural version
computes the same char-list result.) -/
def rustTrim (s : String) : String :=
  String.mk ((s.data.dropWhile Char.isWhitespace).reverse.dropWhile Char.isWhitespace).reverse

/-- One iteration of the record loop of `import_from_csv` (lines 186-218).
A row is the list of fields the `csv` reader yielded for one record.
Rows with fewer than 6 fields are skipped (`continue`), as are rows whose
trimmed company+title already occur case-insensitively; otherwise a record
with the next id is appended.  The boolean reports whether
`added_count += 1` ran. -/
def importRow (jobs : List Job) (row : List String) : List Job × Bool :=
  if row.length < 6 then (jobs, false)
  else
    let company := rustTrim (row.getD 0 "")
    let title := rustTrim (row.getD 1 "")
    let date_submitted := rustTrim (row.getD 2 "")
    let docs_used := rustTrim (row.getD 3 "")
    let answer_raw := rustTrim (row.getD 4 "")
    let location := rustTrim (row.getD 5 "")
    let final_answer := if answer_raw.isEmpty then none else some answer_raw
    if jobs.any (dupMatch company title) then (jobs, false)
    else
      (jobs ++ [{ id := nextId jobs, company := company, title := title,
                  date_submitted := date_submitted, docs_used := docs_used,
                  location := location, final_answer := final_answer }], true)

/-- `import_from_csv` (lines 179-222) on the successfully parsed data rows
of the file: fold `importRow` over the rows, counting accepted rows
(`added_count`).  File opening and per-record parse failures abort the
Rust function through `?` before any save; the embedding covers the run
over the rows the reader yields. -/
def importFromCsv (jobs : List Job) (rows : List (List String)) : List Job × Nat :=
  match rows with
  | [] => (jobs, 0)
  | row :: rest =>
    let p := importRow jobs row
    let q := importFromCsv p.1 rest
    (q.1, (if p.2 then 1 else 0) + q.2)

/-- `load_jobs` (lines 152-162).  `contents = none` models the absence of
the persisted file (`!Path::new(DATA_FILE).exists()`); `parse` models
`serde_json::from_reader`, with `none` for a parse error.  A missing file
or an unparseable one yields the empty collection. -/
def loadJobs (contents : Option String) (parse : String → Option (List Job)) : List Job :=
  match contents with
  | none => []
  | some s =>
    match parse s with
    | some jobs => jobs
    | none => []

/-- Total byte length of a string's UTF-8 encoding (Rust `str::len`). -/
def utf8Len (s : String) : Nat :=
  (s.data.map Char.utf8Size).sum

/-- The first `n` bytes of a character list as a character list:
`some` exactly when byte position `n` falls on a character boundary and
`n` does not exceed the total byte length; models Rust's `&s[0..n]`,
whose failure (`none`) is a panic. -/
def takeBytes : List Char → Nat → Option (List Char)
  | _, 0 => some []
  | [], _ + 1 => none
  | c :: cs, n + 1 =>
    if c.utf8Size ≤ n + 1 then
      (takeBytes cs (n + 1 - c.utf8Size)).map fun l => c :: l
    else none

/-- `truncate` (lines 171-177).  `s.len()` is the UTF-8 byte length; when
it exceeds `max_width` the Rust code evaluates
`format!("{}...", &s[0..max_width-3])`.  `none` models the two panic
paths: `max_width < 3` (the `usize` subtraction, and with wrapping the
out-of-range slice), and a slice end that is not a character boundary. -/
def truncate (s : String) (max_width : Nat) : Option String :=
  if utf8Len s > max_width then
    if max_width < 3 then none
    else (takeBytes s.data (max_width - 3)).map fun l => String.mk l ++ "..."
  else some s

/-- `total_jobs` of `export_to_pdf` (line 264). -/
def totalJobs (jobs : List Job) : Nat :=
  jobs.length

/-- `pending_count` of `export_to_pdf` (line 265):
`jobs.iter().filter(|j| j.final_answer.is_none()).count()`. -/
def pendingCount (jobs : List Job) : Nat :=
  (jobs.filter fun j => j.final_answer.isNone).length

/-- `*status_counts.entry(ans.clone()).or_insert(0) += 1` on an
association list: increment the entry for `k`, inserting `(k, 1)` when
absent. -/
def bump : List (String × Nat) → String → List (String × Nat)
  | [], k => [(k, 1)]
  | (k', v) :: rest, k =>
    if k' = k then (k', v + 1) :: rest
    else (k', v) :: bump rest k

/-- The `status_counts` tally of `export_to_pdf` (lines 266-272): for each
record with `final_answer = Some ans`, bump the count for `ans`.  The Rust
code uses a `HashMap`; the spec leaves the enumeration order of the
distinct answers unspecified, so the association list (first-occurrence
order) represents the same key→count mapping. -/
def statusCounts (jobs : List Job) : List (String × Nat) :=
  jobs.foldl
    (fun m j =>
      match j.final_answer with
      | some ans => bump m ans
      | none => m)
    []

/-- Number of records whose `final_answer` is exactly `Some s`. -/
def occ (jobs : List Job) (s : String) : Nat :=
  (jobs.filter fun j => j.final_answer = some s).length

/-- Collections reachable from the empty collection by the four
collection-transforming operations of the program. -/
inductive Reachable : List Job → Prop
  | empty : Reachable []
  | add (jobs : List Job) (c t d l ds : String) :
      Reachable jobs → Reachable (addJob jobs c t d l ds).1
  | update (jobs : List Job) (i : Nat) (a : String) :
      Reachable jobs → Reachable (updateJob jobs i a).1
  | delete (jobs : List Job) (i : Nat) :
      Reachable jobs → Reachable (deleteJob jobs i).1
  | imp (jobs : List Job) (rows : List (List String)) :
      Reachable jobs → Reachable (importFromCsv jobs rows).1

/-- An operation `f` on collections never turns a non-pending record back
into a pending one: any record of `f jobs` carrying the id of a
non-pending record of `jobs` is itself non-pending (stated for
collections with distinct ids, the store invariant). -/
def keepsNonPending (f : List Job → List Job) : Prop :=
  ∀ jobs : List Job, (jobs.map Job.id).Nodup →
    ∀ j ∈ jobs, j.final_answer ≠ none →
      ∀ j' ∈ f jobs, j'.id = j.id → j'.final_answer ≠ none

example : nextId [] = 1 := by decide
example :
    (addJob [] "Acme" "Engineer" "resume.pdf" "Berlin" "2024-01-01").2.id = 1 := by
  decide
example : truncate "abcdefgh" 5 = some "ab..." := by decide

/-! ### Basic lemmas about id assignment -/

lemma le_foldl_max (l : List Nat) (a : Nat) : a ≤ l.foldl max a := by
  induction l generalizing a with
  | nil => exact Nat.le_refl a
  | cons x xs ih => exact Nat.le_trans (Nat.le_max_left a x) (ih (max a x))

lemma mem_le_foldl_max {x : Nat} {l : List Nat} (a : Nat) (hx : x ∈ l) :
    x ≤ l.foldl max a := by
  induction l generalizing a with
  | nil => cases hx
  | cons y ys ih =>
    rcases List.mem_cons.mp hx with h | h
    · subst h
      exact Nat.le_trans (Nat.le_max_right a x) (le_foldl_max ys (max a x))
    · exact ih (max a y) h

lemma foldl_max_mem (l : List Nat) (a : Nat) :
    l.foldl max a = a ∨ l.foldl max a ∈ l := by
  induction l generalizing a with
  | nil => exact Or.inl rfl
  | cons x xs ih =>
    rcases ih (max a x) with h | h
    · rcases max_choice a x with h' | h'
      · exact Or.inl (by rw [List.foldl_cons, h, h'])
      · exact Or.inr (by rw [List.foldl_cons, h, h']; exact List.mem_cons_self x xs)
    · exact Or.inr (List.mem_cons_of_mem _ h)

lemma id_le_maxId {j : Job} {jobs : List Job} (hj : j ∈ jobs) :
    j.id ≤ maxId jobs :=
  mem_le_foldl_max 0 (List.mem_map_of_mem Job.id hj)

lemma id_lt_nextId {j : Job} {jobs : List Job} (hj : j ∈ jobs) :
    j.id < nextId jobs :=
  Nat.lt_succ_of_le (id_le_maxId hj)

lemma maxId_eq_id_of_ne_nil {jobs : List Job} (h : jobs ≠ []) :
    ∃ j ∈ jobs, maxId jobs = j.id := by
  rcases foldl_max_mem (jobs.map Job.id) 0 with h0 | hmem
  · cases jobs with
    | nil => exact absurd rfl h
    | cons j rest =>
      refine ⟨j, List.mem_cons_self j rest, ?_⟩
      have hle : j.id ≤ maxId (j :: rest) :=
        id_le_maxId (List.mem_cons_self j rest)
      have : maxId (j :: rest) = 0 := h0
      omega
  · rcases List.mem_map.mp hmem with ⟨j, hj, hid⟩
    exact ⟨j, hj, hid.symm⟩

lemma maxId_append_single (jobs : List Job) (j : Job) :
    maxId (jobs ++ [j]) = max (maxId jobs) j.id := by
  simp [maxId, List.foldl_append]

lemma nextId_le_nextId_append (jobs : List Job) (j : Job) :
    nextId jobs ≤ nextId (jobs ++ [j]) := by
  have := maxId_append_single jobs j
  simp only [nextId, this]
  omega

/-! ### Lemmas about `updateJob` -/

lemma updateJob_map_id (jobs : List Job) (i : Nat) (a : String) :
    ((updateJob jobs i a).1).map Job.id = jobs.map Job.id := by
  induction jobs with
  | nil => rfl
  | cons j rest ih =>
    by_cases h : j.id = i
    · simp [updateJob, h]
    · simp [updateJob, h, ih]

lemma updateJob_not_found {jobs : List Job} {i : Nat} (a : String)
    (h : ∀ j ∈ jobs, j.id ≠ i) : updateJob jobs i a = (jobs, false) := by
  induction jobs with
  | nil => rfl
  | cons j rest ih =>
    have hj : j.id ≠ i := h j (List.mem_cons_self j rest)
    have hrest := ih fun k hk => h k (List.mem_cons_of_mem j hk)
    simp [updateJob, hj, hrest]

lemma updateJob_mem {jobs : List Job} {i : Nat} {a : String} {j' : Job}
    (h : j' ∈ (updateJob jobs i a).1) :
    j' ∈ jobs ∨ ∃ k ∈ jobs, k.id = i ∧ j' = { k with final_answer := some a } := by
  induction jobs with
  | nil => simp [updateJob] at h
  | cons j rest ih =>
    by_cases hid : j.id = i
    · simp only [updateJob, if_pos hid] at h
      rcases List.mem_cons.mp h with h | h
      · exact Or.inr ⟨j, List.mem_cons_self j rest, hid, h⟩
      · exact Or.inl (List.mem_cons_of_mem j h)
    · simp only [updateJob, if_neg hid] at h
      rcases List.mem_cons.mp h with h | h
      · exact Or.inl (h ▸ List.mem_cons_self j rest)
      · rcases ih h with h' | ⟨k, hk, hki, hj'⟩
        · exact Or.inl (List.mem_cons_of_mem j h')
        · exact Or.inr ⟨k, List.mem_cons_of_mem j hk, hki, hj'⟩

lemma map_untouched {jobs : List Job} {i : Nat} (a : String)
    (h : ∀ j ∈ jobs, j.id ≠ i) :
    jobs.map (fun j => if j.id = i then { j with final_answer := some a } else j)
      = jobs := by
  induction jobs with
  | nil => rfl
  | cons j rest ih =>
    have hj : j.id ≠ i := h j (List.mem_cons_self j rest)
    have hrest := ih fun k hk => h k (List.mem_cons_of_mem j hk)
    simp [hj, hrest]

lemma updateJob_found {jobs : List Job} {i : Nat} {j0 : Job} (a : String)
    (hdup : (jobs.map Job.id).Nodup) (h0 : j0 ∈ jobs) (hid : j0.id = i) :
    updateJob jobs i a =
      (jobs.map
        (fun j => if j.id = i then { j with final_answer := some a } else j),
       true) := by
  induction jobs with
  | nil => cases h0
  | cons j rest ih =>
    have hdup' : (rest.map Job.id).Nodup := (List.nodup_cons.mp hdup).2
    by_cases hj : j.id = i
    · have hrestne : ∀ k ∈ rest, k.id ≠ i := by
        intro k hk hki
        have : j.id ∈ rest.map Job.id := by
          rw [hj, ← hki]; exact List.mem_map_of_mem Job.id hk
        exact (List.nodup_cons.mp hdup).1 this
      simp [updateJob, hj, map_untouched a hrestne]
    · have h0rest : j0 ∈ rest := by
        rcases List.mem_cons.mp h0 with h | h
        · exact absurd (h ▸ hid) hj
        · exact h
      simp [updateJob, hj, ih hdup' h0rest]

/-! ### Lemmas about the CSV importer -/

/-- Trimmed company field of a row (`record[0].trim()`). -/
def rowCompany (row : List String) : String := rustTrim (row.getD 0 "")

/-- Trimmed title field of a row (`record[1].trim()`). -/
def rowTitle (row : List String) : String := rustTrim (row.getD 1 "")

/-- Trimmed answer field of a row (`record[4].trim()`). -/
def rowAnswer (row : List String) : String := rustTrim (row.getD 4 "")

/-- The record `import_from_csv` builds for an accepted row. -/
def importedJob (jobs : List Job) (row : List String) : Job :=
  { id := nextId jobs, company := rowCompany row, title := rowTitle row,
    date_submitted := rustTrim (row.getD 2 ""), docs_used := rustTrim (row.getD 3 ""),
    location := rustTrim (row.getD 5 ""),
    final_answer :=
      if (rowAnswer row).isEmpty then none else some (rowAnswer row) }

lemma importRow_eq (jobs : List Job) (row : List String) :
    importRow jobs row =
      if row.length < 6 then (jobs, false)
      else if jobs.any (dupMatch (rowCompany row) (rowTitle row)) then (jobs, false)
      else (jobs ++ [importedJob jobs row], true) := rfl

lemma eqIgnoreAsciiCase_refl (s : String) : eqIgnoreAsciiCase s s = true := by
  simp [eqIgnoreAsciiCase]

lemma dupMatch_importedJob (jobs : List Job) (row : List String) :
    dupMatch (rowCompany row) (rowTitle row) (importedJob jobs row) = true := by
  simp [dupMatch, importedJob, eqIgnoreAsciiCase_refl]

lemma importRow_cases (jobs : List Job) (row : List String) :
    importRow jobs row = (jobs, false) ∨
      importRow jobs row = (jobs ++ [importedJob jobs row], true) := by
  rw [importRow_eq]
  by_cases h6 : row.length < 6
  · exact Or.inl (by simp [h6])
  · by_cases hdup : jobs.any (dupMatch (rowCompany row) (rowTitle row))
    · exact Or.inl (by simp [h6, hdup])
    · exact Or.inr (by simp [h6, hdup])

lemma importRow_mono {j : Job} {jobs : List Job} (row : List String)
    (hj : j ∈ jobs) : j ∈ (importRow jobs row).1 := by
  rcases importRow_cases jobs row with h | h
  · rw [h]; exact hj
  · rw [h]; exact List.mem_append_left _ hj

lemma importFromCsv_mono {j : Job} :
    ∀ (rows : List (List String)) (jobs : List Job), j ∈ jobs →
      j ∈ (importFromCsv jobs rows).1 := by
  intro rows
  induction rows with
  | nil => intro jobs hj; exact hj
  | cons row rest ih =>
    intro jobs hj
    show j ∈ (importFromCsv (importRow jobs row).1 rest).1
    exact ih _ (importRow_mono row hj)

lemma importFromCsv_mem_or {j' : Job} :
    ∀ (rows : List (List String)) (jobs : List Job),
      j' ∈ (importFromCsv jobs rows).1 → j' ∈ jobs ∨ nextId jobs ≤ j'.id := by
  intro rows
  induction rows with
  | nil => intro jobs h; exact Or.inl h
  | cons row rest ih =>
    intro jobs h
    have h' : j' ∈ (importFromCsv (importRow jobs row).1 rest).1 := h
    rcases importRow_cases jobs row with hr | hr
    · rw [hr] at h'
      exact ih jobs h'
    · rw [hr] at h'
      rcases ih _ h' with hmem | hle
      · rcases List.mem_append.mp hmem with hmem | hmem
        · exact Or.inl hmem
        · have : j' = importedJob jobs row := List.mem_singleton.mp hmem
          exact Or.inr (le_of_eq (by rw [this]; rfl))
      · exact Or.inr (Nat.le_trans (nextId_le_nextId_append jobs _) hle)

/-! ### Id uniqueness is preserved by every operation -/

lemma nodup_append_new {jobs : List Job} {j : Job}
    (hd : (jobs.map Job.id).Nodup) (hid : j.id = nextId jobs) :
    ((jobs ++ [j]).map Job.id).Nodup := by
  rw [List.map_append]
  refine List.Nodup.append hd (List.nodup_singleton j.id) ?_
  intro x hx hx'
  have hx1 : x = j.id := by simpa using hx'
  rcases List.mem_map.mp hx with ⟨k, hk, hkx⟩
  have : k.id < nextId jobs := id_lt_nextId hk
  omega

lemma nodup_addJob {jobs : List Job} (c t d l ds : String)
    (hd : (jobs.map Job.id).Nodup) :
    (((addJob jobs c t d l ds).1).map Job.id).Nodup :=
  nodup_append_new hd rfl

lemma nodup_updateJob {jobs : List Job} (i : Nat) (a : String)
    (hd : (jobs.map Job.id).Nodup) :
    (((updateJob jobs i a).1).map Job.id).Nodup := by
  rw [updateJob_map_id]; exact hd

lemma nodup_deleteJob {jobs : List Job} (i : Nat)
    (hd : (jobs.map Job.id).Nodup) :
    (((deleteJob jobs i).1).map Job.id).Nodup := by
  have hsub : ((jobs.filter fun j => j.id != i).map Job.id).Sublist (jobs.map Job.id) :=
    (List.filter_sublist jobs).map Job.id
  exact hsub.nodup hd

lemma nodup_importRow {jobs : List Job} (row : List String)
    (hd : (jobs.map Job.id).Nodup) :
    (((importRow jobs row).1).map Job.id).Nodup := by
  rcases importRow_cases jobs row with h | h
  · rw [h]; exact hd
  · rw [h]; exact nodup_append_new hd rfl

lemma nodup_importFromCsv :
    ∀ (rows : List (List String)) (jobs : List Job),
      (jobs.map Job.id).Nodup → (((importFromCsv jobs rows).1).map Job.id).Nodup := by
  intro rows
  induction rows with
  | nil => intro jobs hd; exact hd
  | cons row rest ih =>
    intro jobs hd
    exact ih (importRow jobs row).1 (nodup_importRow row hd)

/-! ### Import idempotence machinery -/

lemma importFromCsv_covers :
    ∀ (rows : List (List String)) (jobs : List Job) (row : List String),
      row ∈ rows → ¬ row.length < 6 →
      ∃ j ∈ (importFromCsv jobs rows).1,
        dupMatch (rowCompany row) (rowTitle row) j = true := by
  intro rows
  induction rows with
  | nil => intro jobs row h _; cases h
  | cons r rest ih =>
    intro jobs row hrow h6
    rcases List.mem_cons.mp hrow with heq | hmem
    · subst heq
      by_cases hdup : jobs.any (dupMatch (rowCompany row) (rowTitle row))
      · rcases List.any_eq_true.mp hdup with ⟨j, hj, hmatch⟩
        refine ⟨j, ?_, hmatch⟩
        show j ∈ (importFromCsv (importRow jobs row).1 rest).1
        exact importFromCsv_mono rest _ (importRow_mono row hj)
      · have hr : importRow jobs row = (jobs ++ [importedJob jobs row], true) := by
          rw [importRow_eq]; simp [h6, hdup]
        refine ⟨importedJob jobs row, ?_, dupMatch_importedJob jobs row⟩
        show importedJob jobs row ∈ (importFromCsv (importRow jobs row).1 rest).1
        rw [hr]
        exact importFromCsv_mono rest _
          (List.mem_append_right _ (List.mem_singleton_self _))
    · exact ih (importRow jobs r).1 row hmem h6

lemma importFromCsv_skip_all :
    ∀ (rows : List (List String)) (jobs : List Job),
      (∀ row ∈ rows, ¬ row.length < 6 →
        ∃ j ∈ jobs, dupMatch (rowCompany row) (rowTitle row) j = true) →
      importFromCsv jobs rows = (jobs, 0) := by
  intro rows
  induction rows with
  | nil => intro jobs _; rfl
  | cons r rest ih =>
    intro jobs h
    have hr : importRow jobs r = (jobs, false) := by
      by_cases h6 : r.length < 6
      · rw [importRow_eq]; simp [h6]
      · rcases h r (List.mem_cons_self r rest) h6 with ⟨j, hj, hmatch⟩
        have hany : jobs.any (dupMatch (rowCompany r) (rowTitle r)) = true :=
          List.any_eq_true.mpr ⟨j, hj, hmatch⟩
        rw [importRow_eq]; simp [h6, hany]
    have hrest := ih jobs fun row hrow => h row (List.mem_cons_of_mem r hrow)
    show ((importFromCsv (importRow jobs r).1 rest).1,
          (if (importRow jobs r).2 then 1 else 0) +
            (importFromCsv (importRow jobs r).1 rest).2) = (jobs, 0)
    rw [hr]
    simp [hrest]

/-! ### The statistics tally -/

/-- `m` is a well-formed tally for the count function `cnt`: for every
key, the entries with that key are a single `(key, cnt key)` pair when
`cnt key` is positive and nothing otherwise. -/
def statInv (cnt : String → Nat) (m : List (String × Nat)) : Prop :=
  ∀ s : String, m.filter (fun p => p.1 = s) =
    if cnt s = 0 then [] else [(s, cnt s)]

lemma statInv_congr {c1 c2 : String → Nat} {m : List (String × Nat)}
    (h : ∀ s, c1 s = c2 s) (hm : statInv c1 m) : statInv c2 m := by
  intro s
  have := hm s
  rw [h s] at this
  exact this


lemma bump_filter_other (k s : String) (hs : s ≠ k) :
    ∀ m : List (String × Nat),
      (bump m k).filter (fun p => p.1 = s) = m.filter (fun p => p.1 = s) := by
  intro m
  induction m with
  | nil => simp [bump, List.filter_cons, Ne.symm hs]
  | cons e rest ih =>
    obtain ⟨k', v⟩ := e
    by_cases hk : k' = k
    · subst hk
      simp [bump, List.filter_cons, Ne.symm hs]
    · by_cases hks : k' = s
      · subst hks
        simp [bump, hk, List.filter_cons, ih]
      · simp [bump, hk, List.filter_cons, hks, ih]

lemma bump_filter_self (k : String) :
    ∀ m : List (String × Nat),
      (bump m k).filter (fun p => p.1 = k) =
        match m.filter (fun p => p.1 = k) with
        | [] => [(k, 1)]
        | e :: tl => (e.1, e.2 + 1) :: tl := by
  intro m
  induction m with
  | nil => simp [bump, List.filter_cons]
  | cons e rest ih =>
    obtain ⟨k', v⟩ := e
    by_cases hk : k' = k
    · subst hk
      simp [bump, List.filter_cons]
    · simp [bump, hk, List.filter_cons, ih]

lemma bump_statInv {cnt : String → Nat} {m : List (String × Nat)} (k : String)
    (hm : statInv cnt m) :
    statInv (fun s => if s = k then cnt s + 1 else cnt s) (bump m k) := by
  intro s
  by_cases hs : s = k
  · subst hs
    rw [bump_filter_self s m, hm s]
    by_cases hz : cnt s = 0
    · simp [hz]
    · simp [hz]
  · rw [bump_filter_other k s hs m, hm s]
    simp [hs]

lemma occ_cons (j : Job) (rest : List Job) (s : String) :
    occ (j :: rest) s = (if j.final_answer = some s then 1 else 0) + occ rest s := by
  by_cases h : j.final_answer = some s
  · simp [occ, List.filter_cons, h, Nat.add_comm]
  · simp [occ, List.filter_cons, h]

lemma foldl_statInv :
    ∀ (jobs : List Job) (m : List (String × Nat)) (cnt : String → Nat),
      statInv cnt m →
      statInv (fun s => cnt s + occ jobs s)
        (jobs.foldl
          (fun m j =>
            match j.final_answer with
            | some ans => bump m ans
            | none => m)
          m) := by
  intro jobs
  induction jobs with
  | nil =>
    intro m cnt hm
    exact statInv_congr (fun s => by simp [occ]) hm
  | cons j rest ih =>
    intro m cnt hm
    rw [List.foldl_cons]
    cases hj : j.final_answer with
    | none =>
      refine statInv_congr (fun s => ?_) (ih m cnt hm)
      rw [occ_cons, hj]
      simp
    | some ans =>
      refine statInv_congr (fun s => ?_) (ih (bump m ans) _ (bump_statInv ans hm))
      rw [occ_cons, hj]
      by_cases hs : s = ans
      · subst hs; simp; omega
      · have hne : ans ≠ s := fun h => hs h.symm
        simp [hs, hne]

lemma statusCounts_statInv (jobs : List Job) :
    statInv (fun s => occ jobs s) (statusCounts jobs) := by
  have h0 : statInv (fun _ => 0) ([] : List (String × Nat)) := by
    intro s; simp
  exact statInv_congr (fun s => by simp) (foldl_statInv jobs [] (fun _ => 0) h0)

/-! ### ASCII strings and `truncate` -/

lemma utf8Size_eq_one_of_ascii {c : Char} (h : c.toNat < 128) : c.utf8Size = 1 := by
  simp only [Char.utf8Size]
  rw [if_pos]
  rw [UInt32.le_def, BitVec.le_def]
  show c.val.toBitVec.toNat ≤ 127
  have hh : c.val.toBitVec.toNat < 128 := h
  omega

lemma sum_utf8Size_ascii :
    ∀ (l : List Char), (∀ c ∈ l, c.toNat < 128) →
      (l.map Char.utf8Size).sum = l.length := by
  intro l
  induction l with
  | nil => intro _; rfl
  | cons c cs ih =>
    intro h
    have hc := utf8Size_eq_one_of_ascii (h c (by simp))
    have hcs := ih fun c' hc' => h c' (by simp [hc'])
    simp [hc, hcs]
    omega

lemma utf8Len_eq_length_of_ascii {s : String}
    (h : ∀ c ∈ s.data, c.toNat < 128) : utf8Len s = s.data.length :=
  sum_utf8Size_ascii s.data h

lemma takeBytes_ascii :
    ∀ (l : List Char) (n : Nat), (∀ c ∈ l, c.utf8Size = 1) → n ≤ l.length →
      takeBytes l n = some (l.take n) := by
  intro l
  induction l with
  | nil =>
    intro n _ hn
    have : n = 0 := Nat.le_zero.mp hn
    subst this
    rfl
  | cons c cs ih =>
    intro n h1 hn
    cases n with
    | zero => rfl
    | succ m =>
      have hc : c.utf8Size = 1 := h1 c (by simp)
      have hle : c.utf8Size ≤ m + 1 := by omega
      have hrec : takeBytes cs m = some (cs.take m) :=
        ih m (fun c' hc' => h1 c' (by simp [hc'])) (by simpa using hn)
      simp [takeBytes, hle, hc, hrec]

lemma utf8Len_append (s t : String) :
    utf8Len (s ++ t) = utf8Len s + utf8Len t := by
  simp [utf8Len, String.data_append]

/-! ### Claim theorems -/

/-- C1: for every collection reachable from the empty collection by any
sequence of add, update, delete and CSV-import operations, the record ids
are pairwise distinct — each of the four operations preserves id
uniqueness. -/
theorem C1_id_uniqueness (jobs : List Job) (h : Reachable jobs) :
    (jobs.map Job.id).Nodup := by
  induction h with
  | empty => simp
  | add jobs c t d l ds _ ih => exact nodup_addJob c t d l ds ih
  | update jobs i a _ ih => exact nodup_updateJob i a ih
  | delete jobs i _ ih => exact nodup_deleteJob i ih
  | imp jobs rows _ ih => exact nodup_importFromCsv rows jobs ih

theorem C1_id_uniqueness_witness :
    ((((importFromCsv
          (addJob [] "Acme" "Engineer" "cv" "Berlin" "2024-01-01").1
          [["Initech", "Dev", "2024-01-02", "cv", "", "Rome"]]).1).map
        Job.id).Nodup) :=
  C1_id_uniqueness _
    (Reachable.imp _ _
      (Reachable.add [] "Acme" "Engineer" "cv" "Berlin" "2024-01-01"
        Reachable.empty))

/-- C2: the id assigned to a newly added record — by the `add` command or
by an accepted CSV-import row — is `nextId jobs`, which equals the
maximum id present plus 1 (witnessed by conjuncts 3 and 4: it is above
every present id and is one more than some present id), and equals 1 on
the empty collection. -/
theorem C2_new_id_is_max_plus_one (jobs : List Job) (c t d l ds : String) :
    (addJob jobs c t d l ds).2.id = nextId jobs ∧
    (jobs = [] → nextId jobs = 1) ∧
    (∀ j ∈ jobs, j.id < nextId jobs) ∧
    (jobs ≠ [] → ∃ j ∈ jobs, nextId jobs = j.id + 1) ∧
    (∀ row : List String, (importRow jobs row).2 = true →
      ∃ jb, (importRow jobs row).1 = jobs ++ [jb] ∧ jb.id = nextId jobs) := by
  refine ⟨rfl, ?_, ?_, ?_, ?_⟩
  · intro h; subst h; rfl
  · intro j hj; exact id_lt_nextId hj
  · intro h
    rcases maxId_eq_id_of_ne_nil h with ⟨j, hj, hid⟩
    exact ⟨j, hj, by simp [nextId, hid]⟩
  · intro row hrow
    rcases importRow_cases jobs row with h | h
    · rw [h] at hrow; cases hrow
    · exact ⟨importedJob jobs row, by rw [h], rfl⟩

theorem C2_new_id_is_max_plus_one_witness :
    nextId ([] : List Job) = 1 ∧
    (∃ j ∈ [Job.mk 5 "Acme" "Engineer" "2024-01-01" "cv" "Berlin" none],
      nextId [Job.mk 5 "Acme" "Engineer" "2024-01-01" "cv" "Berlin" none] =
        j.id + 1) ∧
    (∃ jb,
      (importRow []
          ["Acme", "Engineer", "2024-01-01", "cv", "Rejected", "Berlin"]).1 =
        [] ++ [jb] ∧ jb.id = nextId []) := by
  refine ⟨?_, ?_, ?_⟩
  · exact (C2_new_id_is_max_plus_one [] "a" "b" "c" "d" "e").2.1 rfl
  · exact
      (C2_new_id_is_max_plus_one
        [Job.mk 5 "Acme" "Engineer" "2024-01-01" "cv" "Berlin" none]
        "a" "b" "c" "d" "e").2.2.2.1 (by decide)
  · exact
      (C2_new_id_is_max_plus_one [] "a" "b" "c" "d" "e").2.2.2.2
        ["Acme", "Engineer", "2024-01-01", "cv", "Rejected", "Berlin"]
        (by decide)

/-- C3 counterexample: the claim "delete(N) followed by add assigns an id
different from N" fails on the concrete collection `[{id := 1, ...}]`:
deleting id 1 empties the collection and the next add assigns id 1 again
(ids are recomputed from the current contents, not from a historical
maximum). -/
theorem C3_counterexample :
    (Job.mk 1 "Acme" "Engineer" "2024-01-01" "cv" "Berlin" none).id = 1 ∧
    Job.mk 1 "Acme" "Engineer" "2024-01-01" "cv" "Berlin" none ∈
      [Job.mk 1 "Acme" "Engineer" "2024-01-01" "cv" "Berlin" none] ∧
    (addJob
        (deleteJob [Job.mk 1 "Acme" "Engineer" "2024-01-01" "cv" "Berlin" none]
          1).1
        "Acme" "Engineer" "cv" "Berlin" "2024-02-02").2.id = 1 := by
  decide

/-- C3 (amended): after `delete(N)` the next `add` assigns
`nextId` of the remaining collection, i.e. the maximum remaining id plus
one; this differs from N whenever some surviving record has an id above
N, but a deleted id can be reused (see the counterexample). -/
theorem C3_amended_delete_then_add (jobs : List Job) (N : Nat)
    (c t d l ds : String) :
    (addJob (deleteJob jobs N).1 c t d l ds).2.id =
      nextId (deleteJob jobs N).1 ∧
    ((∃ j ∈ jobs, N < j.id) →
      (addJob (deleteJob jobs N).1 c t d l ds).2.id ≠ N) := by
  refine ⟨rfl, ?_⟩
  rintro ⟨j, hj, hN⟩ heq
  have hjmem : j ∈ (deleteJob jobs N).1 :=
    List.mem_filter.mpr ⟨hj, by simp [bne_iff_ne]; omega⟩
  have hlt : j.id < nextId (deleteJob jobs N).1 := id_lt_nextId hjmem
  have hN' : nextId (deleteJob jobs N).1 = N := heq
  omega

theorem C3_amended_delete_then_add_witness :
    (∃ j ∈ [Job.mk 1 "Acme" "Engineer" "2024-01-01" "cv" "Berlin" none,
            Job.mk 2 "Initech" "Dev" "2024-01-02" "cv" "Rome" none],
      1 < j.id) ∧
    (addJob
        (deleteJob
          [Job.mk 1 "Acme" "Engineer" "2024-01-01" "cv" "Berlin" none,
           Job.mk 2 "Initech" "Dev" "2024-01-02" "cv" "Rome" none]
          1).1
        "a" "b" "c" "d" "e").2.id ≠ 1 :=
  ⟨by decide,
   (C3_amended_delete_then_add
      [Job.mk 1 "Acme" "Engineer" "2024-01-01" "cv" "Berlin" none,
       Job.mk 2 "Initech" "Dev" "2024-01-02" "cv" "Rome" none]
      1 "a" "b" "c" "d" "e").2 (by decide)⟩

/-- C4: importing the same CSV rows a second time adds zero new records
and leaves the collection unchanged — every data row is either too short
(skipped again) or, after the first import, matches an existing record's
company and title case-insensitively and is deduplicated. -/
theorem C4_import_idempotent (jobs : List Job) (rows : List (List String)) :
    importFromCsv (importFromCsv jobs rows).1 rows =
      ((importFromCsv jobs rows).1, 0) := by
  apply importFromCsv_skip_all
  intro row hrow h6
  exact importFromCsv_covers rows jobs row hrow h6

/-- C5: `update(N, answer)` on a collection without id N returns the
collection unchanged with a not-found outcome (and raises no error — the
function is total); on a collection with distinct ids containing N it
sets that record's `final_answer` to the given text and maps every other
record to itself. -/
theorem C5_update_semantics (jobs : List Job) (N : Nat) (a : String) :
    ((∀ j ∈ jobs, j.id ≠ N) → updateJob jobs N a = (jobs, false)) ∧
    ((jobs.map Job.id).Nodup → ∀ j0 ∈ jobs, j0.id = N →
      updateJob jobs N a =
        (jobs.map fun j =>
          if j.id = N then { j with final_answer := some a } else j,
         true)) := by
  refine ⟨updateJob_not_found a, ?_⟩
  intro hd j0 h0 hid
  exact updateJob_found a hd h0 hid

theorem C5_update_semantics_witness :
    updateJob [Job.mk 1 "Acme" "Engineer" "2024-01-01" "cv" "Berlin" none]
        2 "Rejected" =
      ([Job.mk 1 "Acme" "Engineer" "2024-01-01" "cv" "Berlin" none], false) ∧
    updateJob [Job.mk 1 "Acme" "Engineer" "2024-01-01" "cv" "Berlin" none]
        1 "Rejected" =
      ([Job.mk 1 "Acme" "Engineer" "2024-01-01" "cv" "Berlin"
          (some "Rejected")], true) := by
  constructor
  · exact
      (C5_update_semantics
        [Job.mk 1 "Acme" "Engineer" "2024-01-01" "cv" "Berlin" none]
        2 "Rejected").1 (by decide)
  · have h :=
      (C5_update_semantics
        [Job.mk 1 "Acme" "Engineer" "2024-01-01" "cv" "Berlin" none]
        1 "Rejected").2 (by decide)
        (Job.mk 1 "Acme" "Engineer" "2024-01-01" "cv" "Berlin" none)
        (by decide) (by decide)
    exact h.trans (by decide)

/-- C6: during CSV import a row with fewer than 6 fields is skipped and
adds no record; a non-duplicate row with exactly 6 fields whose 5th field
trims to the empty string is imported as a record with `final_answer`
absent (pending). -/
theorem C6_short_rows_and_pending (jobs : List Job) (row : List String) :
    (row.length < 6 → importRow jobs row = (jobs, false)) ∧
    (row.length = 6 → rustTrim (row.getD 4 "") = "" →
      (∀ j ∈ jobs, dupMatch (rowCompany row) (rowTitle row) j = false) →
      ∃ jb, importRow jobs row = (jobs ++ [jb], true) ∧
        jb.final_answer = none) := by
  constructor
  · intro h6; rw [importRow_eq]; simp [h6]
  · intro h6 hans hnodup
    have h6' : ¬ row.length < 6 := by omega
    have hany : jobs.any (dupMatch (rowCompany row) (rowTitle row)) = false := by
      cases hq : jobs.any (dupMatch (rowCompany row) (rowTitle row)) with
      | false => rfl
      | true =>
        rcases List.any_eq_true.mp hq with ⟨j, hj, hp⟩
        rw [hnodup j hj] at hp
        cases hp
    refine ⟨importedJob jobs row, ?_, ?_⟩
    · rw [importRow_eq]; simp [h6', hany]
    · show (importedJob jobs row).final_answer = none
      have hra : rowAnswer row = "" := hans
      simp only [importedJob, hra]
      rfl

theorem C6_short_rows_and_pending_witness :
    (["Acme", "Engineer", "2024-01-01", "cv", ""] : List String).length < 6 ∧
    importRow [] ["Acme", "Engineer", "2024-01-01", "cv", ""] = ([], false) ∧
    (∃ jb,
      importRow [] ["Acme", "Engineer", "2024-01-01", "cv", "", "Berlin"] =
        ([] ++ [jb], true) ∧ jb.final_answer = none) :=
  ⟨by decide,
   (C6_short_rows_and_pending []
      ["Acme", "Engineer", "2024-01-01", "cv", ""]).1 (by decide),
   (C6_short_rows_and_pending []
      ["Acme", "Engineer", "2024-01-01", "cv", "", "Berlin"]).2
     (by decide) (by decide) (by decide)⟩

/-- C7: `load_jobs` returns the empty collection when no persisted file
exists, returns the empty collection when the persisted content does not
parse, and otherwise returns the parsed collection. -/
theorem C7_load_silent_fallback (parse : String → Option (List Job))
    (s : String) (jobs : List Job) :
    loadJobs none parse = [] ∧
    (parse s = none → loadJobs (some s) parse = []) ∧
    (parse s = some jobs → loadJobs (some s) parse = jobs) := by
  refine ⟨rfl, ?_, ?_⟩
  · intro h; simp [loadJobs, h]
  · intro h; simp [loadJobs, h]

theorem C7_load_silent_fallback_witness :
    loadJobs none (fun _ => none) = [] ∧
    loadJobs (some "garbage") (fun _ => none) = [] ∧
    loadJobs (some "data")
        (fun _ => some [Job.mk 1 "Acme" "Engineer" "2024-01-01" "cv" "Berlin" none]) =
      [Job.mk 1 "Acme" "Engineer" "2024-01-01" "cv" "Berlin" none] :=
  ⟨(C7_load_silent_fallback (fun _ => none) "x" []).1,
   (C7_load_silent_fallback (fun _ => none) "garbage" []).2.1 rfl,
   (C7_load_silent_fallback
      (fun _ => some [Job.mk 1 "Acme" "Engineer" "2024-01-01" "cv" "Berlin" none])
      "data"
      [Job.mk 1 "Acme" "Engineer" "2024-01-01" "cv" "Berlin" none]).2.2 rfl⟩

/-- C8: the export statistics block reports the collection size as total,
the number of records with `final_answer` absent as pending, and, for
every distinct non-pending answer value, that value exactly once with the
number of records carrying it; on the concrete 3-record collection with 1
pending and 2 "Rejected" it reports Total=3, Pending=1, Rejected=2. -/
theorem C8_export_statistics :
    (∀ jobs : List Job,
      totalJobs jobs = jobs.length ∧
      pendingCount jobs = (jobs.filter fun j => j.final_answer = none).length ∧
      (∀ s : String, (statusCounts jobs).filter (fun p => p.1 = s) =
        if occ jobs s = 0 then [] else [(s, occ jobs s)])) ∧
    (totalJobs
        [Job.mk 1 "Acme" "Engineer" "2024-01-01" "cv" "Berlin" (some "Rejected"),
         Job.mk 2 "Initech" "Dev" "2024-01-02" "cv" "Rome" none,
         Job.mk 3 "Umbrella" "QA" "2024-01-03" "cv" "Oslo" (some "Rejected")] = 3 ∧
      pendingCount
        [Job.mk 1 "Acme" "Engineer" "2024-01-01" "cv" "Berlin" (some "Rejected"),
         Job.mk 2 "Initech" "Dev" "2024-01-02" "cv" "Rome" none,
         Job.mk 3 "Umbrella" "QA" "2024-01-03" "cv" "Oslo" (some "Rejected")] = 1 ∧
      statusCounts
        [Job.mk 1 "Acme" "Engineer" "2024-01-01" "cv" "Berlin" (some "Rejected"),
         Job.mk 2 "Initech" "Dev" "2024-01-02" "cv" "Rome" none,
         Job.mk 3 "Umbrella" "QA" "2024-01-03" "cv" "Oslo" (some "Rejected")] =
        [("Rejected", 2)]) := by
  constructor
  · intro jobs
    refine ⟨rfl, ?_, ?_⟩
    · unfold pendingCount
      apply congrArg List.length
      apply List.filter_congr
      intro j _
      cases hj : j.final_answer <;> simp [hj]
    · intro s
      exact statusCounts_statInv jobs s
  · exact ⟨rfl, rfl, by decide⟩

/-- `update` reports success only with a record really updated: when the
result flag is true the output collection holds a record with the target
id whose `final_answer` is `Some` of the given text. -/
lemma updateJob_found_mem :
    ∀ (jobs : List Job) (N : Nat) (a : String), (updateJob jobs N a).2 = true →
      ∃ j ∈ (updateJob jobs N a).1, j.id = N ∧ j.final_answer = some a := by
  intro jobs
  induction jobs with
  | nil => intro N a h; simp [updateJob] at h
  | cons j rest ih =>
    intro N a h
    by_cases hj : j.id = N
    · refine ⟨{ j with final_answer := some a }, ?_, hj, rfl⟩
      simp [updateJob, hj]
    · simp only [updateJob, if_neg hj] at h ⊢
      rcases ih N a h with ⟨k, hk, hkid, hka⟩
      exact ⟨k, List.mem_cons_of_mem j hk, hkid, hka⟩

lemma eq_of_mem_nodup_id {jobs : List Job} (hd : (jobs.map Job.id).Nodup)
    {j j' : Job} (hj : j ∈ jobs) (hj' : j' ∈ jobs) (h : j'.id = j.id) :
    j' = j :=
  List.inj_on_of_nodup_map hd hj' hj h

lemma keepsNonPending_addJob (c t d l ds : String) :
    keepsNonPending fun jobs => (addJob jobs c t d l ds).1 := by
  intro jobs hd j hj hnp j' hj' hid
  rcases List.mem_append.mp hj' with h | h
  · rw [eq_of_mem_nodup_id hd hj h hid]; exact hnp
  · have hnew := List.mem_singleton.mp h
    have hlt : j.id < nextId jobs := id_lt_nextId hj
    have : j'.id = nextId jobs := by rw [hnew]
    omega

lemma keepsNonPending_updateJob (N : Nat) (a : String) :
    keepsNonPending fun jobs => (updateJob jobs N a).1 := by
  intro jobs hd j hj hnp j' hj' hid
  rcases updateJob_mem hj' with h | ⟨k, _, _, hj'eq⟩
  · rw [eq_of_mem_nodup_id hd hj h hid]; exact hnp
  · rw [hj'eq]; simp

lemma keepsNonPending_deleteJob (N : Nat) :
    keepsNonPending fun jobs => (deleteJob jobs N).1 := by
  intro jobs hd j hj hnp j' hj' hid
  rw [eq_of_mem_nodup_id hd hj (List.mem_of_mem_filter hj') hid]
  exact hnp

lemma keepsNonPending_importFromCsv (rows : List (List String)) :
    keepsNonPending fun jobs => (importFromCsv jobs rows).1 := by
  intro jobs hd j hj hnp j' hj' hid
  rcases importFromCsv_mem_or rows jobs hj' with h | h
  · rw [eq_of_mem_nodup_id hd hj h hid]; exact hnp
  · have hlt : j.id < nextId jobs := id_lt_nextId hj
    omega

/-- C10: a successful update stores `Some answer` even for the empty
string; a record with `final_answer = Some ""` is not counted as pending
by the export statistics and `list` renders it as the empty string rather
than "Pending"; and no operation (add, update, delete, import) ever turns
a non-pending record back into a pending one. -/
theorem C10_no_return_to_pending :
    (∀ (jobs : List Job) (N : Nat) (a : String), (updateJob jobs N a).2 = true →
      ∃ j ∈ (updateJob jobs N a).1, j.id = N ∧ j.final_answer = some a) ∧
    (∀ j : Job, j.final_answer = some "" →
      renderAnswer j = "" ∧ renderAnswer j ≠ "Pending" ∧ pendingCount [j] = 0) ∧
    (∀ c t d l ds : String, keepsNonPending fun jobs => (addJob jobs c t d l ds).1) ∧
    (∀ (N : Nat) (a : String), keepsNonPending fun jobs => (updateJob jobs N a).1) ∧
    (∀ N : Nat, keepsNonPending fun jobs => (deleteJob jobs N).1) ∧
    (∀ rows : List (List String), keepsNonPending fun jobs => (importFromCsv jobs rows).1) := by
  refine ⟨updateJob_found_mem, ?_, keepsNonPending_addJob,
    keepsNonPending_updateJob, keepsNonPending_deleteJob,
    keepsNonPending_importFromCsv⟩
  intro j hj
  refine ⟨by simp [renderAnswer, hj], by simp [renderAnswer, hj], ?_⟩
  simp [pendingCount, hj]

theorem C10_no_return_to_pending_witness :
    (∃ j ∈ (updateJob [Job.mk 1 "Acme" "Engineer" "2024-01-01" "cv" "Berlin" none]
        1 "").1, j.id = 1 ∧ j.final_answer = some "") ∧
    renderAnswer (Job.mk 1 "Acme" "Engineer" "2024-01-01" "cv" "Berlin" (some "")) = "" ∧
    (Job.mk 1 "Acme" "Engineer" "2024-01-01" "cv" "Berlin"
        (some "No")).final_answer ≠ none := by
  refine ⟨?_, ?_, ?_⟩
  · exact C10_no_return_to_pending.1
      [Job.mk 1 "Acme" "Engineer" "2024-01-01" "cv" "Berlin" none] 1 "" (by decide)
  · exact (C10_no_return_to_pending.2.1
      (Job.mk 1 "Acme" "Engineer" "2024-01-01" "cv" "Berlin" (some "")) rfl).1
  · exact C10_no_return_to_pending.2.2.2.1 2 "x"
      [Job.mk 1 "Acme" "Engineer" "2024-01-01" "cv" "Berlin" (some "No")]
      (by decide)
      (Job.mk 1 "Acme" "Engineer" "2024-01-01" "cv" "Berlin" (some "No"))
      (by decide) (by decide)
      (Job.mk 1 "Acme" "Engineer" "2024-01-01" "cv" "Berlin" (some "No"))
      (by decide) rfl

/-- C9: on ASCII strings (every character below code point 128) and any
`max_width ≥ 3`, `truncate` never panics and returns a string of at most
`max_width` bytes: the string itself when its byte length is at most
`max_width`, and otherwise its first `max_width - 3` bytes followed by
"...". -/
theorem C9_truncate_total_on_ascii (s : String) (w : Nat)
    (hascii : ∀ c ∈ s.data, c.toNat < 128) (hw : 3 ≤ w) :
    ∃ r, truncate s w = some r ∧ utf8Len r ≤ w ∧
      (utf8Len s ≤ w → r = s) ∧
      (w < utf8Len s → r = String.mk (s.data.take (w - 3)) ++ "...") := by
  have hlen : utf8Len s = s.data.length := utf8Len_eq_length_of_ascii hascii
  by_cases hgt : utf8Len s > w
  · have h3 : ¬ w < 3 := by omega
    have hsz : ∀ c ∈ s.data, c.utf8Size = 1 := fun c hc =>
      utf8Size_eq_one_of_ascii (hascii c hc)
    have htake : takeBytes s.data (w - 3) = some (s.data.take (w - 3)) :=
      takeBytes_ascii s.data (w - 3) hsz (by omega)
    refine ⟨String.mk (s.data.take (w - 3)) ++ "...", ?_, ?_, ?_, fun _ => rfl⟩
    · unfold truncate
      rw [if_pos hgt, if_neg h3, htake]
      rfl
    · rw [utf8Len_append]
      have h1 : utf8Len (String.mk (s.data.take (w - 3))) =
          (s.data.take (w - 3)).length :=
        utf8Len_eq_length_of_ascii fun c hc =>
          hascii c (List.mem_of_mem_take hc)
      have h2 : utf8Len ("..." : String) = 3 := by decide
      have h4 : (s.data.take (w - 3)).length = w - 3 := by
        rw [List.length_take]
        omega
      omega
    · intro hle
      exact absurd hle (by omega)
  · refine ⟨s, ?_, by omega, fun _ => rfl, ?_⟩
    · unfold truncate
      rw [if_neg hgt]
    · intro hlt
      exact absurd hlt (by omega)

theorem C9_truncate_total_on_ascii_witness :
    (∀ c ∈ ("abcdefgh" : String).data, c.toNat < 128) ∧ 3 ≤ 5 ∧
    (∃ r, truncate "abcdefgh" 5 = some r ∧ utf8Len r ≤ 5 ∧
      (utf8Len "abcdefgh" ≤ 5 → r = "abcdefgh") ∧
      (5 < utf8Len "abcdefgh" →
        r = String.mk (("abcdefgh" : String).data.take (5 - 3)) ++ "...")) :=
  ⟨by decide, by decide,
   C9_truncate_total_on_ascii "abcdefgh" 5 (by decide) (by decide)⟩
